import Mathlib

/-!
Shallow embedding of the finviewer chart layout engine
(`src/chart_widget.rs`, data model from `src/types.rs`).

Rust `f64` values are modelled as exact rationals (`ℚ`); machine casts
(`as i32`) are modelled by truncation toward zero with i32 saturation, and
the one place the source can divide by zero (a flat price range) is modelled
explicitly as a failure value, since exact rationals cannot represent the
non-finite `f64` that the source would produce there.
-/

namespace FinViewer

/-- One trading-period OHLC record (`Bar` in `src/types.rs`).  The `date`
field is omitted: no arithmetic in the layout engine reads it (the only use,
an x-axis label, is commented out in `chart_widget.rs`). -/
structure Bar where
  open_ : ℚ
  high : ℚ
  low : ℚ
  close : ℚ
deriving DecidableEq

/-- Canvas size in pixels (`druid::Size`). -/
structure Size where
  width : ℚ
  height : ℚ
deriving DecidableEq

/-- Constant `FONT_SIZE` of `chart_widget.rs`. -/
def FONT_SIZE : ℚ := 14

/-- Constant `BAR_WIDTH: i32 = 10`. -/
def BAR_WIDTH : ℤ := 10

/-- Constant `BAR_SPACING: i32 = 5`. -/
def BAR_SPACING : ℤ := 5

/-- Constant `X_AXIS_LABELS_PADDING: f64 = 20.0`. -/
def X_AXIS_LABELS_PADDING : ℚ := 20

/-- Constant `Y_TICK_SPACING: f64 = 50.0` (one tick per 50 vertical pixels). -/
def Y_TICK_SPACING : ℚ := 50

/-- Constant `Y_AXIS_LABELS_PADDING: f64 = 40.0`. -/
def Y_AXIS_LABELS_PADDING : ℚ := 40

/-- Candidate list `Y_AXIS_TICK_INCREMENTS: [0.1, 0.5, 1.0, 10.0, 100.0]`. -/
def Y_AXIS_TICK_INCREMENTS : List ℚ := [1/10, 1/2, 1, 10, 100]

/-- Truncation toward zero, the rounding used by Rust float-to-int casts. -/
def ratTrunc (x : ℚ) : ℤ := if 0 ≤ x then ⌊x⌋ else ⌈x⌉

/-- Rust `expr as i32` on an `f64`: truncate toward zero, saturating at the
i32 bounds. -/
def i32Cast (x : ℚ) : ℤ := max (-(2 ^ 31)) (min (2 ^ 31 - 1) (ratTrunc x))

/-- The `PriceRange` struct of `chart_widget.rs`. -/
structure PriceRange where
  lowest : ℚ
  highest : ℚ
deriving DecidableEq

/-- Method `PriceRange::range`: `self.highest - self.lowest`. -/
def PriceRange.range (pr : PriceRange) : ℚ := pr.highest - pr.lowest

/-- A `druid::kurbo::Line`: two pixel-space endpoints. -/
structure LineSeg where
  p0 : ℚ × ℚ
  p1 : ℚ × ℚ
deriving DecidableEq

/-- A `druid::Rect` built by `Rect::from_origin_size`: origin plus size. -/
structure Rect where
  x0 : ℚ
  y0 : ℚ
  width : ℚ
  height : ℚ
deriving DecidableEq

/-- An rgb8 color triple (`druid::Color::rgb8`). -/
structure Color where
  r : ℕ
  g : ℕ
  b : ℕ
deriving DecidableEq

/-- The bullish fill color `Color::rgb8(0x38, 0xc1, 0x72)`. -/
def bullGreen : Color := ⟨0x38, 0xc1, 0x72⟩

/-- The bearish fill color `Color::rgb8(0xdc, 0x30, 0x30)`. -/
def bearRed : Color := ⟨0xdc, 0x30, 0x30⟩

/-- The `AxisLabel` struct: label text plus pixel position.  The source stores
the label as the string `price_label.to_string()`; we keep the numeric price
value that string renders. -/
structure AxisLabel where
  label : ℚ
  position : ℚ × ℚ
deriving DecidableEq

/-- The `AxisTick` struct: tick line segment plus its label. -/
structure AxisTick where
  tickLine : LineSeg
  label : AxisLabel
deriving DecidableEq

/-- The `Candle` struct: wick line, body rectangle, fill color. -/
structure Candle where
  wick : LineSeg
  body : Rect
  color : Color
deriving DecidableEq

/-- The i32 the bar-selection loop compares against:
`(self.size.width - Y_AXIS_LABELS_PADDING - 2.0 * BAR_SPACING as f64) as i32`. -/
def availWidth (width : ℚ) : ℤ :=
  i32Cast (width - Y_AXIS_LABELS_PADDING - 2 * (BAR_SPACING : ℚ))

/-- The accumulation loop of `ChartWidget::visible_bars`: `count` is
`bars_to_render.len() as i32` at the head of each iteration; the loop breaks
before pushing once `count * (BAR_WIDTH + BAR_SPACING) > avail`. -/
def visibleBarsAux (avail : ℤ) : List Bar → ℤ → List Bar
  | [], _ => []
  | b :: rest, count =>
    if count * (BAR_WIDTH + BAR_SPACING) > avail then []
    else b :: visibleBarsAux avail rest (count + 1)

/-- Embeds `ChartWidget::visible_bars`: take the prefix of the newest-first bar list
that fits, then reverse to oldest-first. -/
def visibleBars (bars : List Bar) (width : ℚ) : List Bar :=
  (visibleBarsAux (availWidth width) bars 0).reverse

/-- One iteration of the min/max fold in `ChartWidget::price_range`. -/
def priceRangeStep (pr : PriceRange) (b : Bar) : PriceRange :=
  { lowest := if b.low < pr.lowest then b.low else pr.lowest
    highest := if b.high > pr.highest then b.high else pr.highest }

/-- Embeds `ChartWidget::price_range`: seeds the min/max from
`self.bars.first().unwrap()` — the first bar of the FULL sequence — then
folds over the passed (visible) bars.  `none` models the `unwrap()` panic on
an empty full sequence; the source has no error value for this case. -/
def priceRange (allBars visBars : List Bar) : Option PriceRange :=
  match allBars.head? with
  | none => none
  | some b0 => some (visBars.foldl priceRangeStep ⟨b0.low, b0.high⟩)

/-- One iteration of the increment-selection scan in
`ChartWidget::y_axis_ticks`: the accumulator carries
`(closest_tick_size, closest_num_ticks)` and is replaced when the candidate's
tick count is strictly closer to `approx_num_of_ticks`. -/
def chooseTickStep (rangeVal approx : ℚ) (acc : ℚ × ℚ) (t : ℚ) : ℚ × ℚ :=
  if |rangeVal / t - approx| < |acc.2 - approx| then (t, rangeVal / t) else acc

/-- The increment-selection scan of `ChartWidget::y_axis_ticks`, seeded from
`Y_AXIS_TICK_INCREMENTS[0] = 0.1` and folded over the whole candidate list. -/
def chooseTick (rangeVal approx : ℚ) : ℚ × ℚ :=
  Y_AXIS_TICK_INCREMENTS.foldl (chooseTickStep rangeVal approx)
    (1/10, rangeVal / (1/10))

/-- Rust `f64 %` (remainder with the sign of the dividend):
`a - b * trunc(a / b)`.  Only ever called with a positive divisor from
`Y_AXIS_TICK_INCREMENTS`. -/
def fRem (a b : ℚ) : ℚ := a - b * (ratTrunc (a / b) : ℚ)

/-- Embeds `ChartWidget::x_axis`. -/
def xAxis (size : Size) : LineSeg :=
  ⟨((BAR_SPACING : ℚ), size.height - X_AXIS_LABELS_PADDING),
   (size.width - Y_AXIS_LABELS_PADDING, size.height - X_AXIS_LABELS_PADDING)⟩

/-- Embeds `ChartWidget::y_axis`. -/
def yAxis (size : Size) : LineSeg :=
  ⟨(size.width - Y_AXIS_LABELS_PADDING, (BAR_SPACING : ℚ)),
   (size.width - Y_AXIS_LABELS_PADDING, size.height - (BAR_SPACING : ℚ))⟩

/-- The `AxisTick` built in one iteration of the while loop of
`ChartWidget::y_axis_ticks`, at loop variable `current`. -/
def mkAxisTick (size : Size) (scaling highest current : ℚ) : AxisTick :=
  { tickLine :=
      ⟨(size.width - Y_AXIS_LABELS_PADDING, current * scaling),
       (size.width - Y_AXIS_LABELS_PADDING + 5, current * scaling)⟩
    label :=
      { label := highest - current
        position := (size.width - Y_AXIS_LABELS_PADDING + 10,
                     current * scaling - FONT_SIZE / 2) } }

/-- The while loop of `ChartWidget::y_axis_ticks`:
`while (highest - current) > lowest { push tick; current += tick }`.
The `0 < tick` conjunct records the fact the loop's termination rests on;
the chosen tick size is always a member of `Y_AXIS_TICK_INCREMENTS`, all of
which are positive. -/
def tickLoop (size : Size) (scaling highest lowest tick current : ℚ) :
    List AxisTick :=
  if h : 0 < tick ∧ lowest < highest - current then
    mkAxisTick size scaling highest current ::
      tickLoop size scaling highest lowest tick (current + tick)
  else []
termination_by (⌈(highest - lowest - current) / tick⌉).toNat
decreasing_by
  have htick := h.1
  have hcond := h.2
  have hx : 0 < (highest - lowest - current) / tick := by
    apply div_pos _ htick
    linarith
  have hceil : 0 < ⌈(highest - lowest - current) / tick⌉ := Int.ceil_pos.mpr hx
  have hstep : (highest - lowest - (current + tick)) / tick
      = (highest - lowest - current) / tick - 1 := by
    field_simp
    ring
  rw [hstep, Int.ceil_sub_one]
  omega

/-- Embeds `ChartWidget::y_axis_ticks`.  Here `none` models the two ways the source
computation is not a finite-coordinate tick list: the `unwrap()` panic of
`price_range` on an empty bar sequence, and the unguarded division
`(height - X_AXIS_LABELS_PADDING) / price_range.range()` when the range is
zero, which in `f64` yields a non-finite scaling factor. -/
def yAxisTicks (bars : List Bar) (size : Size) : Option (List AxisTick) :=
  match priceRange bars (visibleBars bars size.width) with
  | none => none
  | some pr =>
    let approx := size.height / Y_TICK_SPACING
    let chosen := (chooseTick pr.range approx).1
    if pr.range = 0 then none
    else
      let scaling := (size.height - X_AXIS_LABELS_PADDING) / pr.range
      some (tickLoop size scaling pr.highest pr.lowest chosen
        (fRem pr.highest chosen))

/-- The vertical scaling factor
`(self.size.height - X_AXIS_LABELS_PADDING) / price_range.range()` as
computed (identically) in `y_axis_ticks` and `candles`.  `none` models the
panic on an empty bar sequence and the non-finite `f64` quotient when
`range() == 0`: the source performs the division unguarded. -/
def scalingOf (bars : List Bar) (size : Size) : Option ℚ :=
  match priceRange bars (visibleBars bars size.width) with
  | none => none
  | some pr =>
    if pr.range = 0 then none
    else some ((size.height - X_AXIS_LABELS_PADDING) / pr.range)

/-- The `Candle` built for one bar in `ChartWidget::candles`, at horizontal
position `x` (an i32 in the source). -/
def mkCandle (pr : PriceRange) (scaling : ℚ) (x : ℤ) (b : Bar) : Candle :=
  let barHigh := (pr.highest - b.high) * scaling
  let barLow := (pr.highest - b.low) * scaling
  let higherValue := if b.close > b.open_ then b.close else b.open_
  let barYTop := (pr.highest - higherValue) * scaling
  let lowerValue := if b.close > b.open_ then b.open_ else b.close
  let barHeight := (pr.highest - lowerValue) * scaling - barYTop
  { wick := ⟨((x : ℚ), barHigh), ((x : ℚ), barLow)⟩
    body := ⟨((x - BAR_WIDTH / 2 : ℤ) : ℚ), barYTop, (BAR_WIDTH : ℚ), barHeight⟩
    color := if higherValue = b.close then bullGreen else bearRed }

/-- The per-bar loop of `ChartWidget::candles`: `x` starts at
`BAR_SPACING * 2` and advances by `BAR_WIDTH + BAR_SPACING` per bar. -/
def candlesAux (pr : PriceRange) (scaling : ℚ) : ℤ → List Bar → List Candle
  | _, [] => []
  | x, b :: rest =>
    mkCandle pr scaling x b ::
      candlesAux pr scaling (x + BAR_WIDTH + BAR_SPACING) rest

/-- Embeds `ChartWidget::candles`, with `none` as in `scalingOf`. -/
def candles (bars : List Bar) (size : Size) : Option (List Candle) :=
  match priceRange bars (visibleBars bars size.width) with
  | none => none
  | some pr =>
    if pr.range = 0 then none
    else
      let scaling := (size.height - X_AXIS_LABELS_PADDING) / pr.range
      some (candlesAux pr scaling (BAR_SPACING * 2) (visibleBars bars size.width))

/-- The full geometry set one `paint` pass hands the renderer: both axis
lines (stroked unconditionally), the y-axis ticks, and the candles. -/
structure Scene where
  xAxisLine : LineSeg
  yAxisLine : LineSeg
  ticks : List AxisTick
  candleList : List Candle
deriving DecidableEq

/-- Embeds `ChartWidget::paint`, restricted to the geometry it produces.  `none`
models the pass aborting in a panic / non-finite arithmetic as in
`yAxisTicks`. -/
def paintScene (bars : List Bar) (size : Size) : Option Scene :=
  match yAxisTicks bars size, candles bars size with
  | some ts, some cs => some ⟨xAxis size, yAxis size, ts, cs⟩
  | _, _ => none

/-! ## Concrete inputs used by witnesses and counterexamples -/

/-- A well-formed, non-flat bar: open 100, high 101, low 99, close 100.5. -/
def bStd : Bar := ⟨100, 101, 99, 201/2⟩

/-- A flat bar: all four prices equal 100. -/
def bFlat : Bar := ⟨100, 100, 100, 100⟩

/-! ## Helper lemmas: the bar-selection loop -/

lemma ratTrunc_mono {x y : ℚ} (hxy : x ≤ y) : ratTrunc x ≤ ratTrunc y := by
  unfold ratTrunc
  split
  · split
    · exact Int.floor_le_floor hxy
    · linarith [le_trans ‹0 ≤ x› hxy]
  · split
    · calc ⌈x⌉ ≤ 0 := Int.ceil_le.mpr (by push_cast; linarith)
        _ ≤ ⌊y⌋ := Int.le_floor.mpr (by exact_mod_cast ‹0 ≤ y›)
    · exact Int.ceil_le_ceil hxy

lemma i32Cast_mono {x y : ℚ} (hxy : x ≤ y) : i32Cast x ≤ i32Cast y := by
  have := ratTrunc_mono hxy
  unfold i32Cast
  omega

lemma availWidth_mono {w₁ w₂ : ℚ} (hw : w₁ ≤ w₂) : availWidth w₁ ≤ availWidth w₂ :=
  i32Cast_mono (by linarith)

lemma visibleBarsAux_eq_nil {avail count : ℤ} (l : List Bar)
    (h : avail < count * 15) : visibleBarsAux avail l count = [] := by
  cases l with
  | nil => rfl
  | cons b rest =>
    unfold visibleBarsAux
    rw [if_pos]
    show avail < count * (BAR_WIDTH + BAR_SPACING)
    unfold BAR_WIDTH BAR_SPACING
    omega

lemma visibleBarsAux_length_bound :
    ∀ (l : List Bar) (count avail : ℤ), count * 15 ≤ avail →
      ((visibleBarsAux avail l count).length : ℤ) + count ≤ avail / 15 + 1 := by
  intro l
  induction l with
  | nil => intro count avail h; simp [visibleBarsAux]; omega
  | cons b rest ih =>
    intro count avail h
    unfold visibleBarsAux
    rw [if_neg (by unfold BAR_WIDTH BAR_SPACING; omega)]
    rcases le_or_lt ((count + 1) * 15) avail with h' | h'
    · have := ih (count + 1) avail h'
      simp only [List.length_cons]
      push_cast
      omega
    · rw [visibleBarsAux_eq_nil rest h']
      simp only [List.length_cons, List.length_nil]
      push_cast
      omega

lemma visibleBarsAux_length_mono :
    ∀ (l : List Bar) (count a₁ a₂ : ℤ), a₁ ≤ a₂ →
      (visibleBarsAux a₁ l count).length ≤ (visibleBarsAux a₂ l count).length := by
  intro l
  induction l with
  | nil => intro count a₁ a₂ _; simp [visibleBarsAux]
  | cons b rest ih =>
    intro count a₁ a₂ ha
    unfold visibleBarsAux
    rcases lt_or_le a₁ (count * (BAR_WIDTH + BAR_SPACING)) with h1 | h1
    · rw [if_pos (show count * (BAR_WIDTH + BAR_SPACING) > a₁ from h1)]
      simp
    · rw [if_neg (show ¬ count * (BAR_WIDTH + BAR_SPACING) > a₁ by omega),
        if_neg (show ¬ count * (BAR_WIDTH + BAR_SPACING) > a₂ by omega)]
      simpa using ih (count + 1) a₁ a₂ ha

/-- Bound `⌊a⌋ / n ≤ ⌊a / n⌋` for the concrete divisor 15. -/
lemma floor_ediv_le_floor_div (a : ℚ) : ⌊a⌋ / 15 ≤ ⌊a / 15⌋ := by
  refine Int.le_floor.mpr ?_
  have h1 : ((⌊a⌋ / 15 : ℤ) : ℚ) * 15 ≤ (⌊a⌋ : ℚ) := by
    exact_mod_cast (by omega : (⌊a⌋ / 15 : ℤ) * 15 ≤ ⌊a⌋)
  rw [le_div_iff₀ (by norm_num : (0:ℚ) < 15)]
  exact h1.trans (Int.floor_le a)

/-! ## C1: empty bar sequence -/

/-- C1: on an empty bar sequence the layout computation does NOT fail with an
explicit error value: `price_range` calls `self.bars.first().unwrap()`, which
panics (modelled as `none`, see `priceRange`), and every downstream pass
aborts with it.  No "no data" error value exists in the source. -/
theorem empty_bars_panic :
    priceRange ([] : List Bar) [] = none
  ∧ yAxisTicks [] ⟨200, 200⟩ = none
  ∧ candles [] ⟨200, 200⟩ = none
  ∧ paintScene [] ⟨200, 200⟩ = none :=
  ⟨rfl, rfl, rfl, rfl⟩

/-! ## C2: visibility bound and monotonicity in canvas width -/

/-- C2 (amended): the number of selected visible bars is at most
`max 1 (⌊(w - 40 - 10) / 15⌋ + 1)` — one more than the claimed
`⌊(w - 40 - 10) / 15⌋`, because the loop admits a bar before performing the
footprint check — and, for a fixed bar sequence, it is monotonically
non-decreasing in the canvas width. -/
theorem visibleBars_bound_and_mono :
    (∀ (bars : List Bar) (w : ℚ),
      ((visibleBars bars w).length : ℤ) ≤ max 1 (⌊(w - 40 - 10) / 15⌋ + 1))
  ∧ (∀ (bars : List Bar) (w₁ w₂ : ℚ), w₁ ≤ w₂ →
      (visibleBars bars w₁).length ≤ (visibleBars bars w₂).length) := by
  constructor
  · intro bars w
    unfold visibleBars
    rw [List.length_reverse]
    set A := availWidth w with hA
    rcases lt_or_le A 0 with hneg | hpos
    · rw [visibleBarsAux_eq_nil bars (by omega)]
      simp only [List.length_nil, Nat.cast_zero]
      omega
    · have hb := visibleBarsAux_length_bound bars 0 A (by omega)
      have hw50 : w - 40 - 10 = w - 50 := by ring
      rw [hw50]
      rcases le_or_lt 0 (w - 50) with hge | hlt
      · have htr : ratTrunc (w - 50) = ⌊w - 50⌋ := by unfold ratTrunc; rw [if_pos hge]
        have hfl : (0:ℤ) ≤ ⌊w - 50⌋ := Int.le_floor.mpr (by exact_mod_cast hge)
        have hAle : A ≤ ⌊w - 50⌋ := by
          rw [hA]
          unfold availWidth i32Cast
          have : w - Y_AXIS_LABELS_PADDING - 2 * (BAR_SPACING : ℚ) = w - 50 := by
            unfold Y_AXIS_LABELS_PADDING BAR_SPACING
            push_cast
            ring
          rw [this, htr]
          omega
        have hdiv := floor_ediv_le_floor_div (w - 50)
        omega
      · have htr : ratTrunc (w - 50) ≤ 0 := by
          unfold ratTrunc
          rw [if_neg (by linarith)]
          exact Int.ceil_le.mpr (by push_cast; linarith)
        have hA0 : A ≤ 0 := by
          rw [hA]
          unfold availWidth i32Cast
          have : w - Y_AXIS_LABELS_PADDING - 2 * (BAR_SPACING : ℚ) = w - 50 := by
            unfold Y_AXIS_LABELS_PADDING BAR_SPACING
            push_cast
            ring
          rw [this]
          omega
        omega
  · intro bars w₁ w₂ hw
    unfold visibleBars
    rw [List.length_reverse, List.length_reverse]
    exact visibleBarsAux_length_mono bars 0 _ _ (availWidth_mono hw)

/-- C2 counterexample: at canvas width 65 with two bars, both bars are
selected although `⌊(65 - 40 - 10) / 15⌋ = 1`. -/
theorem visibleBars_bound_cex :
    ¬ (((visibleBars [bStd, bStd] 65).length : ℤ) ≤ ⌊(((65:ℚ) - 40 - 10) / 15)⌋) := by
  have hlen : (visibleBars [bStd, bStd] 65).length = 2 := by
    norm_num [visibleBars, visibleBarsAux, availWidth, i32Cast, ratTrunc,
      Y_AXIS_LABELS_PADDING, BAR_SPACING, BAR_WIDTH]
  rw [hlen]
  norm_num

/-- C2 witness: the amended bound and the monotonicity at concrete inputs. -/
theorem visibleBars_bound_witness :
    ((visibleBars [bStd, bStd] 65).length : ℤ) ≤ max 1 (⌊(((65:ℚ)) - 40 - 10) / 15⌋ + 1)
  ∧ (visibleBars [bStd, bStd] 60).length ≤ (visibleBars [bStd, bStd] 65).length :=
  ⟨visibleBars_bound_and_mono.1 [bStd, bStd] 65,
   visibleBars_bound_and_mono.2 [bStd, bStd] 60 65 (by norm_num)⟩

/-! ## C4: when zero bars are selected -/

/-- C4 (amended): visible-bar selection returns zero bars exactly when the
bar list is empty or the i32-truncated available width
`w - 40 - 10` is negative (in particular for every `w ≤ 49`).  A canvas
narrower than one bar's 15px footprint but with non-negative available width
still selects one bar, because the loop pushes a bar before the footprint
check. -/
theorem visibleBars_empty_iff :
    ∀ (bars : List Bar) (w : ℚ),
      (w ≤ 49 → visibleBars bars w = [])
    ∧ (visibleBars bars w = [] ↔ bars = [] ∨ availWidth w < 0) := by
  have key : ∀ (bars : List Bar) (w : ℚ),
      visibleBars bars w = [] ↔ bars = [] ∨ availWidth w < 0 := by
    intro bars w
    unfold visibleBars
    rw [List.reverse_eq_nil_iff]
    cases bars with
    | nil => simp [visibleBarsAux]
    | cons b rest =>
      unfold visibleBarsAux
      constructor
      · intro h
        right
        by_contra hnot
        rw [if_neg (by unfold BAR_WIDTH BAR_SPACING; omega)] at h
        exact List.cons_ne_nil _ _ h
      · rintro (h | h)
        · exact absurd h (List.cons_ne_nil _ _)
        · rw [if_pos (by unfold BAR_WIDTH BAR_SPACING; omega)]
  intro bars w
  refine ⟨fun hw => ?_, key bars w⟩
  rw [key bars w]
  right
  unfold availWidth i32Cast
  have hcl : ratTrunc (w - Y_AXIS_LABELS_PADDING - 2 * (BAR_SPACING : ℚ)) ≤ -1 := by
    unfold ratTrunc Y_AXIS_LABELS_PADDING BAR_SPACING
    rw [if_neg (by push_cast; linarith)]
    exact Int.ceil_le.mpr (by push_cast; linarith)
  omega

/-- C4 counterexample: canvas width 60 is smaller than one bar's footprint
(40px gutter + 10px padding + 15px per-bar footprint = 65), yet one bar is
selected. -/
theorem visibleBars_footprint_cex :
    (60:ℚ) < 40 + 10 + 15 ∧ visibleBars [bStd] 60 = [bStd] := by
  constructor
  · norm_num
  · norm_num [visibleBars, visibleBarsAux, availWidth, i32Cast, ratTrunc,
      Y_AXIS_LABELS_PADDING, BAR_SPACING, BAR_WIDTH]

/-- C4 witness: the amended statement evaluated at concrete inputs. -/
theorem visibleBars_empty_witness :
    visibleBars [bStd] 40 = []
  ∧ (visibleBars [bStd] 40 = [] ↔ ([bStd] : List Bar) = [] ∨ availWidth 40 < 0) :=
  ⟨(visibleBars_empty_iff [bStd] 40).1 (by norm_num),
   (visibleBars_empty_iff [bStd] 40).2⟩

/-! ## Helper lemmas: the price-range fold -/

lemma priceRangeStep_highest_le (pr : PriceRange) (b : Bar) :
    pr.highest ≤ (priceRangeStep pr b).highest := by
  simp only [priceRangeStep]
  split <;> linarith

lemma priceRangeStep_lowest_ge (pr : PriceRange) (b : Bar) :
    (priceRangeStep pr b).lowest ≤ pr.lowest := by
  simp only [priceRangeStep]
  split <;> linarith

lemma foldl_priceRange_highest_le :
    ∀ (l : List Bar) (pr : PriceRange),
      pr.highest ≤ (l.foldl priceRangeStep pr).highest := by
  intro l
  induction l with
  | nil => intro pr; simp
  | cons b rest ih =>
    intro pr
    rw [List.foldl_cons]
    exact (priceRangeStep_highest_le pr b).trans (ih (priceRangeStep pr b))

lemma foldl_priceRange_lowest_ge :
    ∀ (l : List Bar) (pr : PriceRange),
      (l.foldl priceRangeStep pr).lowest ≤ pr.lowest := by
  intro l
  induction l with
  | nil => intro pr; simp
  | cons b rest ih =>
    intro pr
    rw [List.foldl_cons]
    exact (ih (priceRangeStep pr b)).trans (priceRangeStep_lowest_ge pr b)

lemma foldl_priceRange_mem_high :
    ∀ (l : List Bar) (pr : PriceRange) (b : Bar), b ∈ l →
      b.high ≤ (l.foldl priceRangeStep pr).highest := by
  intro l
  induction l with
  | nil => intro pr b hb; exact absurd hb (List.not_mem_nil b)
  | cons c rest ih =>
    intro pr b hb
    rw [List.foldl_cons]
    rcases List.mem_cons.mp hb with rfl | hb'
    · refine le_trans ?_ (foldl_priceRange_highest_le rest (priceRangeStep pr b))
      simp only [priceRangeStep]
      split <;> linarith
    · exact ih (priceRangeStep pr c) b hb'

lemma foldl_priceRange_mem_low :
    ∀ (l : List Bar) (pr : PriceRange) (b : Bar), b ∈ l →
      (l.foldl priceRangeStep pr).lowest ≤ b.low := by
  intro l
  induction l with
  | nil => intro pr b hb; exact absurd hb (List.not_mem_nil b)
  | cons c rest ih =>
    intro pr b hb
    rw [List.foldl_cons]
    rcases List.mem_cons.mp hb with rfl | hb'
    · refine le_trans (foldl_priceRange_lowest_ge rest (priceRangeStep pr b)) ?_
      simp only [priceRangeStep]
      split <;> linarith
    · exact ih (priceRangeStep pr c) b hb'

/-! ## C5: range containment -/

/-- C5: the computed price range contains every visible bar: each visible
bar's high is at most the computed highest and each visible bar's low is at
least the computed lowest. -/
theorem priceRange_contains (bars : List Bar) (w : ℚ) (pr : PriceRange)
    (hpr : priceRange bars (visibleBars bars w) = some pr) :
    ∀ b ∈ visibleBars bars w, b.high ≤ pr.highest ∧ pr.lowest ≤ b.low := by
  intro b hb
  cases bars with
  | nil =>
    simp [priceRange] at hpr
  | cons b0 rest =>
    simp only [priceRange, List.head?_cons, Option.some.injEq] at hpr
    subst hpr
    exact ⟨foldl_priceRange_mem_high _ _ b hb, foldl_priceRange_mem_low _ _ b hb⟩

/-- C5 witness: containment at a concrete input. -/
theorem priceRange_contains_witness :
    bStd.high ≤ (101:ℚ) ∧ (99:ℚ) ≤ bStd.low :=
  priceRange_contains [bStd] 200 ⟨99, 101⟩
    (by norm_num [priceRange, priceRangeStep, visibleBars, visibleBarsAux,
      availWidth, i32Cast, ratTrunc, Y_AXIS_LABELS_PADDING, BAR_SPACING,
      BAR_WIDTH, bStd, List.foldl])
    bStd
    (by norm_num [visibleBars, visibleBarsAux, availWidth, i32Cast, ratTrunc,
      Y_AXIS_LABELS_PADDING, BAR_SPACING, BAR_WIDTH])

/-! ## Helper lemmas: the tick-increment scan -/

/-- The increment scan always keeps the invariant `acc = (c, rv / c)`, ends
at a minimizer of the distance to `approx`, and ends at the FIRST minimizer:
every candidate strictly before the result is strictly farther. -/
lemma chooseTick_fold_spec (rv a : ℚ) :
    ∀ (l : List ℚ) (c₀ : ℚ),
      ∃ c, l.foldl (chooseTickStep rv a) (c₀, rv / c₀) = (c, rv / c)
        ∧ |rv / c - a| ≤ |rv / c₀ - a|
        ∧ (∀ t ∈ l, |rv / c - a| ≤ |rv / t - a|)
        ∧ (c = c₀ ∨ ∃ l₁ l₂, l = l₁ ++ c :: l₂ ∧ |rv / c - a| < |rv / c₀ - a|
            ∧ ∀ u ∈ l₁, |rv / c - a| < |rv / u - a|) := by
  intro l
  induction l with
  | nil =>
    intro c₀
    exact ⟨c₀, rfl, le_refl _, by simp, Or.inl rfl⟩
  | cons t l ih =>
    intro c₀
    rw [List.foldl_cons]
    by_cases hc : |rv / t - a| < |rv / c₀ - a|
    · rw [show chooseTickStep rv a (c₀, rv / c₀) t = (t, rv / t) by
        simp only [chooseTickStep]; rw [if_pos hc]]
      obtain ⟨c, hfold, hle, hall, hfirst⟩ := ih t
      refine ⟨c, hfold, hle.trans hc.le, ?_, ?_⟩
      · intro u hu
        rcases List.mem_cons.mp hu with rfl | hu'
        · exact hle
        · exact hall u hu'
      · rcases hfirst with rfl | ⟨l₁, l₂, hdec, hlt, hpre⟩
        · exact Or.inr ⟨[], l, by simp, hc, by simp⟩
        · refine Or.inr ⟨t :: l₁, l₂, by rw [hdec]; rfl, hlt.trans hc, ?_⟩
          intro u hu
          rcases List.mem_cons.mp hu with rfl | hu'
          · exact hlt
          · exact hpre u hu'
    · rw [show chooseTickStep rv a (c₀, rv / c₀) t = (c₀, rv / c₀) by
        simp only [chooseTickStep]; rw [if_neg hc]]
      obtain ⟨c, hfold, hle, hall, hfirst⟩ := ih c₀
      refine ⟨c, hfold, hle, ?_, ?_⟩
      · intro u hu
        rcases List.mem_cons.mp hu with rfl | hu'
        · exact hle.trans (not_lt.mp hc)
        · exact hall u hu'
      · rcases hfirst with rfl | ⟨l₁, l₂, hdec, hlt, hpre⟩
        · exact Or.inl rfl
        · refine Or.inr ⟨t :: l₁, l₂, by rw [hdec]; rfl, hlt, ?_⟩
          intro u hu
          rcases List.mem_cons.mp hu with rfl | hu'
          · exact hlt.trans_le (not_lt.mp hc)
          · exact hpre u hu'

lemma increments_pos : ∀ t ∈ Y_AXIS_TICK_INCREMENTS, (0:ℚ) < t := by
  intro t ht
  fin_cases ht <;> norm_num

lemma chooseTick_mem (rv a : ℚ) : (chooseTick rv a).1 ∈ Y_AXIS_TICK_INCREMENTS := by
  obtain ⟨c, hfold, -, -, hfirst⟩ :=
    chooseTick_fold_spec rv a Y_AXIS_TICK_INCREMENTS (1/10)
  have hc : (chooseTick rv a).1 = c := by rw [chooseTick, hfold]
  rw [hc]
  rcases hfirst with rfl | ⟨l₁, l₂, hdec, -, -⟩
  · simp [Y_AXIS_TICK_INCREMENTS]
  · rw [hdec]
    exact List.mem_append_right _ (List.mem_cons_self _ _)

lemma chooseTick_pos (rv a : ℚ) : 0 < (chooseTick rv a).1 :=
  increments_pos _ (chooseTick_mem rv a)

/-! ## C6: tick-increment selection -/

/-- C6: the chosen increment belongs to the fixed candidate list, its tick
count `rv / c` has the smallest absolute difference from
`height / Y_TICK_SPACING` among all candidates, and it is the first
candidate (in list order) achieving that minimum: every candidate strictly
before it in the list is strictly farther. -/
theorem chooseTick_first_min :
    ∀ (rv hgt : ℚ),
      ((chooseTick rv (hgt / Y_TICK_SPACING)).1 ∈ Y_AXIS_TICK_INCREMENTS)
    ∧ (∀ t ∈ Y_AXIS_TICK_INCREMENTS,
        |rv / (chooseTick rv (hgt / Y_TICK_SPACING)).1 - hgt / Y_TICK_SPACING|
          ≤ |rv / t - hgt / Y_TICK_SPACING|)
    ∧ (∃ l₁ l₂,
        Y_AXIS_TICK_INCREMENTS = l₁ ++ (chooseTick rv (hgt / Y_TICK_SPACING)).1 :: l₂
        ∧ ∀ u ∈ l₁,
            |rv / (chooseTick rv (hgt / Y_TICK_SPACING)).1 - hgt / Y_TICK_SPACING|
              < |rv / u - hgt / Y_TICK_SPACING|) := by
  intro rv hgt
  set a := hgt / Y_TICK_SPACING with ha
  obtain ⟨c, hfold, hle, hall, hfirst⟩ :=
    chooseTick_fold_spec rv a Y_AXIS_TICK_INCREMENTS (1/10)
  have hc : (chooseTick rv a).1 = c := by rw [chooseTick, hfold]
  rw [hc]
  refine ⟨?_, hall, ?_⟩
  · rcases hfirst with rfl | ⟨l₁, l₂, hdec, -, -⟩
    · simp [Y_AXIS_TICK_INCREMENTS]
    · rw [hdec]
      exact List.mem_append_right _ (List.mem_cons_self _ _)
  · rcases hfirst with rfl | ⟨l₁, l₂, hdec, -, hpre⟩
    · exact ⟨[], [1/2, 1, 10, 100], by simp [Y_AXIS_TICK_INCREMENTS], by simp⟩
    · exact ⟨l₁, l₂, hdec, hpre⟩

/-- C6 witness: Scenario C — price range 1 on a 200px-high canvas picks the
increment 0.5, and its distance is minimal (instantiated at candidate 1). -/
theorem chooseTick_first_min_witness :
    (chooseTick 1 ((200:ℚ) / Y_TICK_SPACING)).1 = 1/2
  ∧ |(1:ℚ) / (chooseTick 1 ((200:ℚ) / Y_TICK_SPACING)).1 - 200 / Y_TICK_SPACING|
      ≤ |(1:ℚ) / 1 - 200 / Y_TICK_SPACING| := by
  constructor
  · norm_num [chooseTick, chooseTickStep, Y_AXIS_TICK_INCREMENTS, Y_TICK_SPACING,
      List.foldl, abs]
  · exact (chooseTick_first_min 1 200).2.1 1 (by norm_num [Y_AXIS_TICK_INCREMENTS])

/-! ## C3: flat price range is not guarded -/

/-- C3: a flat price range is NOT guarded: for a single flat bar the
computed range is exactly 0 and no epsilon is substituted, so the scaling
division `(height - 20) / range()` is a division by zero — in `f64` a
non-finite scaling that poisons every tick and candle coordinate (modelled
as `none`).  There is no guard in the source. -/
theorem flat_range_unguarded :
    priceRange [bFlat] (visibleBars [bFlat] 200) = some ⟨100, 100⟩
  ∧ PriceRange.range ⟨100, 100⟩ = 0
  ∧ scalingOf [bFlat] ⟨200, 200⟩ = none
  ∧ yAxisTicks [bFlat] ⟨200, 200⟩ = none
  ∧ candles [bFlat] ⟨200, 200⟩ = none := by
  have h1 : priceRange [bFlat] (visibleBars [bFlat] (200:ℚ)) = some ⟨100, 100⟩ := by
    norm_num [priceRange, priceRangeStep, visibleBars, visibleBarsAux, availWidth,
      i32Cast, ratTrunc, Y_AXIS_LABELS_PADDING, BAR_SPACING, BAR_WIDTH, bFlat,
      List.foldl]
  have hr : PriceRange.range ⟨100, 100⟩ = 0 := by
    norm_num [PriceRange.range]
  refine ⟨h1, hr, ?_, ?_, ?_⟩
  · rw [scalingOf.eq_def]
    rw [show (⟨200, 200⟩ : Size).width = (200:ℚ) from rfl, h1]
    dsimp only
    rw [if_pos hr]
  · rw [yAxisTicks.eq_def]
    rw [show (⟨200, 200⟩ : Size).width = (200:ℚ) from rfl, h1]
    dsimp only
    rw [if_pos hr]
  · rw [candles.eq_def]
    rw [show (⟨200, 200⟩ : Size).width = (200:ℚ) from rfl, h1]
    dsimp only
    rw [if_pos hr]

/-! ## Helper lemmas: candle colors -/

lemma mkCandle_color_iff (pr : PriceRange) (s : ℚ) (x : ℤ) (b : Bar) :
    ((mkCandle pr s x b).color = bullGreen ↔ b.open_ ≤ b.close)
  ∧ ((mkCandle pr s x b).color = bearRed ↔ b.close < b.open_) := by
  have hne : bullGreen ≠ bearRed := by decide
  dsimp only [mkCandle]
  by_cases hgt : b.open_ < b.close
  · rw [if_pos (show b.close > b.open_ from hgt), if_pos rfl]
    exact ⟨⟨fun _ => hgt.le, fun _ => rfl⟩,
      ⟨fun hgr => absurd hgr hne, fun hlt => absurd hlt (not_lt.mpr hgt.le)⟩⟩
  · rw [if_neg (show ¬ b.close > b.open_ from hgt)]
    by_cases heq : b.open_ = b.close
    · rw [if_pos heq]
      exact ⟨⟨fun _ => le_of_eq heq, fun _ => rfl⟩,
        ⟨fun hgr => absurd hgr hne,
         fun hlt => absurd hlt (by rw [heq]; exact lt_irrefl _)⟩⟩
    · rw [if_neg heq]
      refine ⟨⟨fun hrg => absurd hrg.symm hne, fun hle => ?_⟩,
        ⟨fun _ => lt_of_le_of_ne (not_lt.mp hgt) (fun hce => heq hce.symm),
         fun _ => rfl⟩⟩
      exact absurd (le_antisymm hle (not_lt.mp hgt)) heq

lemma candlesAux_colors (pr : PriceRange) (s : ℚ) :
    ∀ (l : List Bar) (x : ℤ),
      List.Forall₂ (fun cd b => (cd.color = bullGreen ↔ b.open_ ≤ b.close)
        ∧ (cd.color = bearRed ↔ b.close < b.open_)) (candlesAux pr s x l) l := by
  intro l
  induction l with
  | nil => intro x; simp [candlesAux]
  | cons b rest ih =>
    intro x
    rw [show candlesAux pr s x (b :: rest)
        = mkCandle pr s x b :: candlesAux pr s (x + BAR_WIDTH + BAR_SPACING) rest
      from rfl]
    exact List.Forall₂.cons (mkCandle_color_iff pr s x b)
      (ih (x + BAR_WIDTH + BAR_SPACING))

/-! ## C8: candle colors -/

/-- C8: pairing the generated candles with the visible bars, a candle is
filled with the bullish green exactly when `close ≥ open` (ties included)
and with the bearish red exactly when `close < open`. -/
theorem candles_color (bars : List Bar) (size : Size) (cs : List Candle)
    (hcs : candles bars size = some cs) :
    List.Forall₂ (fun cd b => (cd.color = bullGreen ↔ b.open_ ≤ b.close)
      ∧ (cd.color = bearRed ↔ b.close < b.open_)) cs (visibleBars bars size.width) := by
  rw [candles.eq_def] at hcs
  cases hpr : priceRange bars (visibleBars bars size.width) with
  | none => rw [hpr] at hcs; exact absurd hcs (by simp)
  | some pr =>
    rw [hpr] at hcs
    dsimp only at hcs
    by_cases hr : pr.range = 0
    · rw [if_pos hr] at hcs
      exact absurd hcs (by simp)
    · rw [if_neg hr] at hcs
      injection hcs with hcs
      rw [← hcs]
      exact candlesAux_colors pr _ (visibleBars bars size.width) (BAR_SPACING * 2)

/-! ## Helper lemmas: the tick while loop -/

lemma tick_step_div (h l t c : ℚ) (ht : t ≠ 0) :
    (h - l - (c + t)) / t = (h - l - c) / t - 1 := by
  field_simp
  ring

/-! ## C10: termination of the tick enumeration -/

/-- C10: the tick-enumeration loop terminates: with a positive increment
(the chosen increment is always one of the positive candidates) it produces
a finite tick list of length at most `⌈(highest - lowest - start) / tick⌉`,
each iteration advancing the loop variable by the increment. -/
theorem tickLoop_terminates (size : Size) (scaling highest lowest tick current : ℚ) :
    0 < tick →
    ((tickLoop size scaling highest lowest tick current).length : ℤ)
      ≤ max 0 ⌈(highest - lowest - current) / tick⌉ := by
  intro ht
  induction current using tickLoop.induct size scaling highest lowest tick with
  | case1 x h ih =>
    rw [tick_step_div _ _ _ _ (ne_of_gt ht), Int.ceil_sub_one] at ih
    have hx : 0 < (highest - lowest - x) / tick :=
      div_pos (by linarith [h.2]) h.1
    have hceil := Int.ceil_pos.mpr hx
    rw [tickLoop, dif_pos h]
    simp only [List.length_cons]
    push_cast
    omega
  | case2 x h =>
    rw [tickLoop, dif_neg h]
    simp

/-- C10 witness: the bound at a concrete input. -/
theorem tickLoop_terminates_witness :
    ((tickLoop ⟨0, 0⟩ (-10) 101 99 100 1).length : ℤ)
      ≤ max 0 ⌈((101:ℚ) - 99 - 1) / 100⌉ :=
  tickLoop_terminates ⟨0, 0⟩ (-10) 101 99 100 1 (by norm_num)

lemma fRem_gt_neg {a b : ℚ} (hb : 0 < b) : -b < fRem a b := by
  unfold fRem ratTrunc
  have hab : b * (a / b) = a := by field_simp
  split
  · have hmul : b * ((⌊a / b⌋ : ℤ) : ℚ) ≤ b * (a / b) :=
      mul_le_mul_of_nonneg_left (Int.floor_le _) hb.le
    nlinarith
  · have hceil : ((⌈a / b⌉ : ℤ) : ℚ) < a / b + 1 := Int.ceil_lt_add_one _
    have hmul : b * ((⌈a / b⌉ : ℤ) : ℚ) < b * (a / b + 1) :=
      mul_lt_mul_of_pos_left hceil hb
    nlinarith

lemma tickLoop_label_bounds (size : Size) (scaling highest lowest tick current : ℚ) :
    ∀ tk ∈ tickLoop size scaling highest lowest tick current,
      lowest < tk.label.label ∧ tk.label.label ≤ highest - current := by
  induction current using tickLoop.induct size scaling highest lowest tick with
  | case1 x h ih =>
    rw [tickLoop, dif_pos h]
    intro tk htk
    rcases List.mem_cons.mp htk with rfl | htk'
    · exact ⟨h.2, le_refl _⟩
    · obtain ⟨h1, h2⟩ := ih tk htk'
      exact ⟨h1, by linarith [h.1]⟩
  | case2 x h =>
    rw [tickLoop, dif_neg h]
    intro tk htk
    exact absurd htk (List.not_mem_nil tk)

lemma tickLoop_chain (size : Size) (scaling highest lowest tick current : ℚ) :
    List.Chain' (· > ·)
      ((tickLoop size scaling highest lowest tick current).map
        (fun tk => tk.label.label)) := by
  induction current using tickLoop.induct size scaling highest lowest tick with
  | case1 x h ih =>
    rw [tickLoop, dif_pos h, List.map_cons]
    refine List.chain'_cons'.mpr ⟨?_, ih⟩
    intro y hy
    cases hl : tickLoop size scaling highest lowest tick (x + tick) with
    | nil => rw [hl] at hy; simp at hy
    | cons tk rest =>
      rw [hl] at hy
      simp only [List.map_cons, List.head?_cons, Option.mem_def,
        Option.some.injEq] at hy
      have hmem : tk ∈ tickLoop size scaling highest lowest tick (x + tick) := by
        rw [hl]; exact List.mem_cons_self _ _
      have hb := (tickLoop_label_bounds size scaling highest lowest tick (x + tick)
        tk hmem).2
      show (mkAxisTick size scaling highest x).label.label > y
      rw [← hy]
      show tk.label.label < highest - x
      linarith [h.1]
  | case2 x h =>
    rw [tickLoop, dif_neg h]
    simp

/-! ## C7: tick label monotonicity and containment -/

/-- C7: the enumerated tick label prices are strictly decreasing from the
top downward; every label is strictly above `lowest`, and every label but
possibly the first (the seed offset) is at most `highest`. -/
theorem yAxisTicks_labels (bars : List Bar) (size : Size) (pr : PriceRange)
    (ts : List AxisTick)
    (hpr : priceRange bars (visibleBars bars size.width) = some pr)
    (hts : yAxisTicks bars size = some ts) :
    List.Chain' (· > ·) (ts.map (fun tk => tk.label.label))
  ∧ (∀ tk ∈ ts, pr.lowest < tk.label.label)
  ∧ (∀ p ∈ (ts.map (fun tk => tk.label.label)).tail, p ≤ pr.highest) := by
  rw [yAxisTicks.eq_def, hpr] at hts
  dsimp only at hts
  by_cases hr : pr.range = 0
  · rw [if_pos hr] at hts
    exact absurd hts (by simp)
  · rw [if_neg hr] at hts
    injection hts with hts
    set chosen := (chooseTick pr.range (size.height / Y_TICK_SPACING)).1 with hchosen
    set scaling := (size.height - X_AXIS_LABELS_PADDING) / pr.range with hscaling
    set c0 := fRem pr.highest chosen with hc0
    have hpos : 0 < chosen := chooseTick_pos _ _
    rw [← hts]
    refine ⟨tickLoop_chain size scaling pr.highest pr.lowest chosen c0, ?_, ?_⟩
    · intro tk htk
      exact (tickLoop_label_bounds size scaling pr.highest pr.lowest chosen c0
        tk htk).1
    · by_cases hcond : 0 < chosen ∧ pr.lowest < pr.highest - c0
      · rw [tickLoop, dif_pos hcond, List.map_cons, List.tail_cons]
        intro p hp
        obtain ⟨tk, htk, rfl⟩ := List.mem_map.mp hp
        have hb := (tickLoop_label_bounds size scaling pr.highest pr.lowest chosen
          (c0 + chosen) tk htk).2
        have hgt : -chosen < c0 := fRem_gt_neg hpos
        linarith
      · rw [tickLoop, dif_neg hcond]
        intro p hp
        simp at hp

/-! ## Concrete evaluations shared by witnesses and the C9 theorem -/

/-- The one tick the source produces on a 0×0 canvas for `bStd`. -/
def tickZ : AxisTick := ⟨⟨(-40, -10), (-35, -10)⟩, ⟨100, (-30, -17)⟩⟩

/-- The candle the source produces for `bStd` on a 200×200 canvas. -/
def candleStd : Candle := ⟨⟨(10, 0), (10, 180)⟩, ⟨5, 45, 10, 45⟩, bullGreen⟩

lemma eval_ceil_neg50 : ⌈(-50 : ℚ)⌉ = -50 := by
  rw [show (-50 : ℚ) = ((-50 : ℤ) : ℚ) by norm_num, Int.ceil_intCast]

lemma eval_visible_zero : visibleBars [bStd] 0 = [] := by
  norm_num [visibleBars, visibleBarsAux, availWidth, i32Cast, ratTrunc,
    Y_AXIS_LABELS_PADDING, BAR_SPACING, BAR_WIDTH, eval_ceil_neg50]

lemma eval_priceRange_zero : priceRange [bStd] (visibleBars [bStd] 0) = some ⟨99, 101⟩ := by
  rw [eval_visible_zero]
  rfl

lemma eval_chooseTick_zero :
    (chooseTick (PriceRange.range ⟨99, 101⟩) ((0:ℚ) / Y_TICK_SPACING)).1 = 100 := by
  norm_num [chooseTick, chooseTickStep, Y_AXIS_TICK_INCREMENTS, PriceRange.range,
    Y_TICK_SPACING, List.foldl, abs]

lemma eval_fRem_zero : fRem 101 100 = 1 := by
  norm_num [fRem, ratTrunc]

lemma eval_tickLoop_zero :
    tickLoop ⟨0, 0⟩ (-10) 101 99 100 1 = [tickZ] := by
  rw [tickLoop]
  norm_num
  constructor
  · norm_num [mkAxisTick, tickZ, FONT_SIZE, Y_AXIS_LABELS_PADDING]
  · rw [tickLoop]
    norm_num

lemma eval_ticks_zero : yAxisTicks [bStd] ⟨0, 0⟩ = some [tickZ] := by
  rw [yAxisTicks.eq_def]
  dsimp only
  rw [eval_priceRange_zero]
  dsimp only
  rw [if_neg (by norm_num [PriceRange.range])]
  rw [eval_chooseTick_zero, eval_fRem_zero]
  rw [show ((0:ℚ) - X_AXIS_LABELS_PADDING) / PriceRange.range ⟨99, 101⟩ = -10 by
    norm_num [X_AXIS_LABELS_PADDING, PriceRange.range]]
  rw [eval_tickLoop_zero]

lemma eval_candles_zero : candles [bStd] ⟨0, 0⟩ = some [] := by
  rw [candles.eq_def]
  dsimp only
  rw [eval_priceRange_zero]
  dsimp only
  rw [if_neg (by norm_num [PriceRange.range])]
  rw [eval_visible_zero]
  rfl

lemma eval_visible_std : visibleBars [bStd] 200 = [bStd] := by
  norm_num [visibleBars, visibleBarsAux, availWidth, i32Cast, ratTrunc,
    Y_AXIS_LABELS_PADDING, BAR_SPACING, BAR_WIDTH]

lemma eval_priceRange_std :
    priceRange [bStd] (visibleBars [bStd] 200) = some ⟨99, 101⟩ := by
  rw [eval_visible_std]
  norm_num [priceRange, priceRangeStep, bStd, List.foldl]

lemma eval_candles_std : candles [bStd] ⟨200, 200⟩ = some [candleStd] := by
  rw [candles.eq_def]
  dsimp only
  rw [eval_priceRange_std]
  dsimp only
  rw [if_neg (by norm_num [PriceRange.range])]
  rw [eval_visible_std]
  rw [show ((200:ℚ) - X_AXIS_LABELS_PADDING) / PriceRange.range ⟨99, 101⟩ = 90 by
    norm_num [X_AXIS_LABELS_PADDING, PriceRange.range]]
  norm_num [candlesAux, mkCandle, bStd, candleStd, bullGreen, BAR_WIDTH,
    BAR_SPACING]

/-! ## C9: zero-size canvas does not give an empty geometry set -/

/-- C9: at a 0×0 canvas the source does NOT produce an empty geometry set:
both axis lines are emitted unconditionally (with negative coordinates), and
with a non-empty bar sequence one y-axis tick is still produced; moreover on
an empty bar sequence the pass aborts in the `price_range` panic instead of
degrading gracefully. -/
theorem zero_canvas_not_empty_geometry :
    xAxis ⟨0, 0⟩ = ⟨(5, -20), (-40, -20)⟩
  ∧ yAxis ⟨0, 0⟩ = ⟨(-40, 5), (-40, -5)⟩
  ∧ yAxisTicks [bStd] ⟨0, 0⟩ = some [tickZ]
  ∧ candles [bStd] ⟨0, 0⟩ = some []
  ∧ paintScene [bStd] ⟨0, 0⟩
      = some ⟨⟨(5, -20), (-40, -20)⟩, ⟨(-40, 5), (-40, -5)⟩, [tickZ], []⟩
  ∧ paintScene [] ⟨0, 0⟩ = none := by
  have hx : xAxis ⟨0, 0⟩ = ⟨(5, -20), (-40, -20)⟩ := by
    norm_num [xAxis, BAR_SPACING, X_AXIS_LABELS_PADDING, Y_AXIS_LABELS_PADDING]
  have hy : yAxis ⟨0, 0⟩ = ⟨(-40, 5), (-40, -5)⟩ := by
    norm_num [yAxis, BAR_SPACING, X_AXIS_LABELS_PADDING, Y_AXIS_LABELS_PADDING]
  refine ⟨hx, hy, eval_ticks_zero, eval_candles_zero, ?_, rfl⟩
  rw [paintScene.eq_def, eval_ticks_zero, eval_candles_zero]
  dsimp only
  rw [hx, hy]

/-! ## C7 witness -/

/-- C7 witness: the tick-label properties at the concrete 0×0-canvas input. -/
theorem yAxisTicks_labels_witness :
    List.Chain' (· > ·) ([tickZ].map (fun tk => tk.label.label))
  ∧ (∀ tk ∈ [tickZ], (⟨99, 101⟩ : PriceRange).lowest < tk.label.label)
  ∧ (∀ p ∈ ([tickZ].map (fun tk => tk.label.label)).tail,
      p ≤ (⟨99, 101⟩ : PriceRange).highest) :=
  yAxisTicks_labels [bStd] ⟨0, 0⟩ ⟨99, 101⟩ [tickZ] eval_priceRange_zero
    eval_ticks_zero

/-! ## C8 witness -/

/-- C8 witness: the color pairing at a concrete input. -/
theorem candles_color_witness :
    List.Forall₂ (fun cd b => (cd.color = bullGreen ↔ b.open_ ≤ b.close)
      ∧ (cd.color = bearRed ↔ b.close < b.open_)) [candleStd]
      (visibleBars [bStd] ((⟨200, 200⟩ : Size).width)) :=
  candles_color [bStd] ⟨200, 200⟩ [candleStd] eval_candles_std

end FinViewer
